import Mathlib

/-!
# Repo-lyzer: dependency analyzer — shallow embedding

Shallow embedding of `internal/analyzer/dependencies.go` and the
contributor-export slice of `internal/ui/export.go`, together with theorems
settling the specification claims about them.

Modelling conventions:
* Go strings are Lean `String`s; the line-oriented parsers work on `List Char`
  (`String.data`).  Whitespace is modelled at ASCII level (the Go code uses
  `unicode.IsSpace`, the regexes use RE2's `\s`; manifest files are ASCII).
* Fallible collaborators that are external to the repository are oracles:
  `GetFileContent` composed with base64 decoding is a `String → Option String`
  parameter, and `encoding/json.Unmarshal` for package.json is a
  `String → Option PkgJson` parameter (`none` = decode failure).
* Go's `sort.Slice` is documented to be an *unstable* sort, so the npm
  parser is parametrised by the sort implementation `sorter`; the contract
  `IsSortImpl` captures exactly what `sort.Slice` guarantees (the result is a
  permutation of the input that is sorted by the comparator `Name <`,
  i.e. non-strictly sorted by name).
-/

namespace RepoLyzer

/-! ## Character-level utilities (models of Go `strings` helpers) -/

/-- ASCII whitespace, modelling `unicode.IsSpace` on ASCII input
(space, tab, newline, vertical tab, form feed, carriage return). -/
def isGoSpace (c : Char) : Bool :=
  c = ' ' || c = '\t' || c = '\n' || c = (Char.ofNat 11) || c = (Char.ofNat 12) || c = '\r'

/-- RE2's `\s` character class: `[\t\n\f\r ]`. -/
def isRegexSpace (c : Char) : Bool :=
  c = ' ' || c = '\t' || c = '\n' || c = (Char.ofNat 12) || c = '\r'

/-- Model of `strings.TrimSpace` (ASCII whitespace). -/
def trimSpace (l : List Char) : List Char :=
  ((l.dropWhile isGoSpace).reverse.dropWhile isGoSpace).reverse

/-- Model of `strings.Trim s cutset`: strip any leading/trailing characters
belonging to `cutset`. -/
def trimCutset (cutset : List Char) (l : List Char) : List Char :=
  ((l.dropWhile (fun c => cutset.contains c)).reverse.dropWhile
    (fun c => cutset.contains c)).reverse

/-- Model of `strings.Split s (String.singleton sep)`: split on every
occurrence of the separator character, keeping empty pieces. -/
def splitOnChar (sep : Char) : List Char → List (List Char)
  | [] => [[]]
  | c :: rest =>
    match splitOnChar sep rest with
    | [] => [[c]]
    | p :: ps => if c = sep then [] :: p :: ps else (c :: p) :: ps

/-- Model of `strings.HasPrefix`. -/
def startsWithL (p l : List Char) : Bool := p.isPrefixOf l

/-- Model of `strings.Contains` (substring search). -/
def containsSub (needle : List Char) : List Char → Bool
  | [] => needle.isPrefixOf []
  | c :: t => needle.isPrefixOf (c :: t) || containsSub needle t

/-- Accumulator-style worker for `fields`. -/
def fieldsAux (acc : List Char) : List Char → List (List Char)
  | [] => if acc.isEmpty then [] else [acc.reverse]
  | c :: rest =>
    if isGoSpace c then
      if acc.isEmpty then fieldsAux [] rest else acc.reverse :: fieldsAux [] rest
    else fieldsAux (c :: acc) rest

/-- Model of `strings.Fields`: split around runs of whitespace. -/
def fields (l : List Char) : List (List Char) := fieldsAux [] l

/-- Model of `strings.SplitN l sep 2` restricted to a character separator:
splits at the first occurrence, `none` when the separator does not occur. -/
def splitFirst (sep : Char) : List Char → Option (List Char × List Char)
  | [] => none
  | c :: t =>
    if c = sep then some ([], t)
    else (splitFirst sep t).map (fun p => (c :: p.1, p.2))

/-! ## Data model (`dependencies.go`) -/

/-- `Dependency` — a single dependency record (`name`, `version`, `type`). -/
structure Dependency where
  name : String
  version : String
  type : String
deriving DecidableEq, Repr

/-- `DependencyFile` — one manifest's parse result. -/
structure DependencyFile where
  filename : String
  fileType : String
  dependencies : List Dependency
  totalCount : Nat
deriving DecidableEq, Repr

/-- `DependencyAnalysis` — the aggregate report. -/
structure DependencyAnalysis where
  files : List DependencyFile
  totalDeps : Nat
  languages : List String
  hasLock : Bool
deriving DecidableEq, Repr

/-- `github.TreeEntry` — a tree-listing entry (`Path`, `Type`). -/
structure TreeEntry where
  path : String
  type : String
deriving DecidableEq, Repr

/-! ## go.mod parser (`parseGoMod`) -/

/-- The body of `parseGoMod`'s per-line loop.  State is
`(inRequire, deps-so-far)`; the branch order mirrors the Go source exactly
(`require (` opener, `)` closer, single-line `require`, in-block line). -/
def goModLineStep (st : Bool × List Dependency) (rawLine : List Char) :
    Bool × List Dependency :=
  let line := trimSpace rawLine
  if startsWithL "require (".data line then (true, st.2)
  else if line = ")".data then (false, st.2)
  else if startsWithL "require ".data line && !line.contains '(' then
    match fields line with
    | _ :: nm :: ver :: _ =>
      (st.1, st.2 ++ [⟨String.mk nm, String.mk ver, "production"⟩])
    | _ => st
  else if st.1 && !line.isEmpty && !startsWithL "//".data line then
    match fields line with
    | nm :: ver :: _ =>
      (st.1, st.2 ++ [⟨String.mk nm, String.mk ver,
        if containsSub "// indirect".data line then "indirect" else "production"⟩])
    | _ => st
  else st

/-- `parseGoMod`: line-oriented scan of `require` declarations. -/
def parseGoMod (content : String) : List Dependency × String :=
  (((splitOnChar '\n' content.data).foldl goModLineStep (false, [])).2, "go")

/-! ## package.json parser (`parsePackageJSON`) -/

/-- The decoded shape `json.Unmarshal` fills in `parsePackageJSON`: the
`dependencies`, `devDependencies` and `peerDependencies` objects, each a
`map[string]string`.  A Go map is modelled as its association list in the
(runtime-chosen) enumeration order; keys within one section are unique in
any real decode, but nothing here depends on that. -/
structure PkgJson where
  dependencies : List (String × String)
  devDependencies : List (String × String)
  peerDependencies : List (String × String)
deriving DecidableEq, Repr

/-- `cleanVersion`: trims surrounding whitespace (the Go function does
nothing else). -/
def cleanVersion (v : String) : String := String.mk (trimSpace v.data)

/-- The dependency records `parsePackageJSON` accumulates before sorting:
production entries, then dev entries, then peer entries, in map-enumeration
order within each section. -/
def pkgDeps (pkg : PkgJson) : List Dependency :=
  pkg.dependencies.map (fun p => ⟨p.1, cleanVersion p.2, "production"⟩)
    ++ pkg.devDependencies.map (fun p => ⟨p.1, cleanVersion p.2, "dev"⟩)
    ++ pkg.peerDependencies.map (fun p => ⟨p.1, cleanVersion p.2, "peer"⟩)

/-- Non-strict "sorted by name" order used to specify the result of
`sort.Slice(deps, deps[i].Name < deps[j].Name)`. -/
def nameLe (a b : Dependency) : Prop := a.name ≤ b.name

/-- Strict name order (used to derive uniqueness of sorted results when
names are distinct). -/
def nameLt (a b : Dependency) : Prop := a.name < b.name

instance (a b : Dependency) : Decidable (nameLe a b) :=
  inferInstanceAs (Decidable (a.name ≤ b.name))

instance (a b : Dependency) : Decidable (nameLt a b) :=
  inferInstanceAs (Decidable (a.name < b.name))

/-- Contract of Go's unstable `sort.Slice` with comparator `Name <`:
the result is a permutation of the input and is non-strictly sorted by
name.  Any function satisfying this is a possible execution. -/
def IsSortImpl (sorter : List Dependency → List Dependency) : Prop :=
  ∀ l, (sorter l).Perm l ∧ (sorter l).Pairwise nameLe

/-- `parsePackageJSON`: decode (oracle `jdec` modelling `json.Unmarshal`),
then emit the three sections sorted by name (`sorter` modelling
`sort.Slice`).  Decode failure yields the empty list; the tag is always
`"npm"`. -/
def parsePackageJSON (sorter : List Dependency → List Dependency)
    (jdec : String → Option PkgJson) (content : String) :
    List Dependency × String :=
  match jdec content with
  | none => ([], "npm")
  | some pkg => (sorter (pkgDeps pkg), "npm")

/-- Insertion of one dependency into a name-sorted list (used to build a
concrete witness implementation of the sorting contract). -/
def insertDep (d : Dependency) : List Dependency → List Dependency
  | [] => [d]
  | e :: t => if d.name ≤ e.name then d :: e :: t else e :: insertDep d t

/-- Insertion sort by name: one concrete implementation satisfying
`IsSortImpl` (a stable one; Go's `sort.Slice` need not be stable). -/
def goSort : List Dependency → List Dependency
  | [] => []
  | d :: t => insertDep d (goSort t)

/-! ## requirements.txt parser (`parseRequirementsTxt`) -/

/-- The character class `[a-zA-Z0-9_-]` of the requirement-name capture. -/
def isPyNameChar (c : Char) : Bool :=
  (c ≥ 'a' && c ≤ 'z') || (c ≥ 'A' && c ≤ 'Z') || (c ≥ '0' && c ≤ '9') ||
    c = '_' || c = '-'

/-- The operator class `[=<>!~]` of the version capture. -/
def isPyOpChar (c : Char) : Bool :=
  c = '=' || c = '<' || c = '>' || c = '!' || c = '~'

/-- Per-line matcher of `parseRequirementsTxt`: tries
`^([a-zA-Z0-9_-]+)\s*([=<>!~]+.*)$` (version trimmed), then
`^([a-zA-Z0-9_-]+)\s*$` (version `"*"`).  Both patterns are anchored and
their character classes are pairwise disjoint, so greedy maximal-munch
matching is exact. -/
def pyLineDeps (line : List Char) : List Dependency :=
  let nm := line.takeWhile isPyNameChar
  let rest := (line.dropWhile isPyNameChar).dropWhile isRegexSpace
  if nm.isEmpty then []
  else
    match rest with
    | [] => [⟨String.mk nm, "*", "production"⟩]
    | c :: _ =>
      if isPyOpChar c then
        [⟨String.mk nm, String.mk (trimSpace rest), "production"⟩]
      else []

/-- `parseRequirementsTxt`: line-oriented; blank lines and lines starting
with `#` or `-` (after trimming) are skipped. -/
def parseRequirementsTxt (content : String) : List Dependency × String :=
  ((splitOnChar '\n' content.data).foldl (fun acc rawLine =>
    let line := trimSpace rawLine
    if line.isEmpty || startsWithL "#".data line || startsWithL "-".data line
    then acc
    else acc ++ pyLineDeps line) [], "python")

/-! ## Cargo.toml parser (`parseCargoToml`) -/

/-- The cutset `"\"'"` of `strings.Trim` applied to Cargo version strings. -/
def quotesCutset : List Char := ['"', Char.ofNat 39]

/-- The body of `parseCargoToml`'s per-line loop; state is
`(inDeps, inDevDeps, deps-so-far)`. -/
def cargoLineStep (st : Bool × Bool × List Dependency) (rawLine : List Char) :
    Bool × Bool × List Dependency :=
  let line := trimSpace rawLine
  if line = "[dependencies]".data then (true, false, st.2.2)
  else if line = "[dev-dependencies]".data then (false, true, st.2.2)
  else if startsWithL "[".data line then (false, false, st.2.2)
  else if (st.1 || st.2.1) && line.contains '=' then
    match splitFirst '=' line with
    | some (before, after) =>
      (st.1, st.2.1, st.2.2 ++ [⟨String.mk (trimSpace before),
        String.mk (trimCutset quotesCutset (trimSpace after)),
        if st.2.1 then "dev" else "production"⟩])
    | none => st
  else st

/-- `parseCargoToml`: line-level state machine over the `[dependencies]`
and `[dev-dependencies]` sections. -/
def parseCargoToml (content : String) : List Dependency × String :=
  (((splitOnChar '\n' content.data).foldl cargoLineStep (false, false, [])).2.2,
    "rust")

/-! ## Gemfile parser (`parseGemfile`) -/

/-- Either quote character accepted by the gem pattern's `['"]`. -/
def isQuoteChar (c : Char) : Bool := c = '"' || c = Char.ofNat 39

/-- One quoted argument `['"]([^'"]+)['"]`: opening quote, a non-empty
maximal run of non-quote characters (the capture), closing quote (either
kind).  Returns the capture and the remainder. -/
def gemQuoted (l : List Char) : Option (List Char × List Char) :=
  match l with
  | [] => none
  | q :: rest =>
    if isQuoteChar q then
      let cap := rest.takeWhile (fun c => !isQuoteChar c)
      let rest2 := rest.dropWhile (fun c => !isQuoteChar c)
      if cap.isEmpty then none
      else
        match rest2 with
        | [] => none
        | q2 :: rest3 => if isQuoteChar q2 then some (cap, rest3) else none
    else none

/-- The optional second argument `(?:\s*,\s*['"]([^'"]+)['"])?`. -/
def gemOptArg (l : List Char) : Option (List Char × List Char) :=
  match l.dropWhile isRegexSpace with
  | [] => none
  | c :: rest =>
    if c = ',' then gemQuoted (rest.dropWhile isRegexSpace) else none

/-- Attempt of the full gem pattern
`gem\s+['"]([^'"]+)['"](?:\s*,\s*['"]([^'"]+)['"])?` anchored at the start
of `l`.  Returns `(name-capture, version-capture)`, the version capture
being `[]` when the optional group is absent (as Go's `matches[2] == ""`).
Every class boundary in the pattern is between disjoint character classes,
so greedy matching without backtracking is exact. -/
def matchGemAt (l : List Char) : Option (List Char × List Char) :=
  match l with
  | g :: e :: m :: rest =>
    if g = 'g' && e = 'e' && m = 'm' then
      if (rest.takeWhile isRegexSpace).isEmpty then none
      else
        match gemQuoted (rest.dropWhile isRegexSpace) with
        | some (nm, rest3) =>
          match gemOptArg rest3 with
          | some (ver, _) => some (nm, ver)
          | none => some (nm, [])
        | none => none
    else none
  | _ => none

/-- Leftmost match of the gem pattern (`Regexp.FindStringSubmatch`). -/
def findGem : List Char → Option (List Char × List Char)
  | [] => none
  | c :: t =>
    match matchGemAt (c :: t) with
    | some r => some r
    | none => findGem t

/-- The dependency (zero or one) `parseGemfile` emits for one non-skipped
line: version defaults to `"*"` when the second capture is empty. -/
def gemLineDeps (line : List Char) : List Dependency :=
  match findGem line with
  | some (nm, ver) =>
    [⟨String.mk nm, if ver.isEmpty then "*" else String.mk ver, "production"⟩]
  | none => []

/-- `parseGemfile`: line-oriented; `#`-comment and blank lines skipped. -/
def parseGemfile (content : String) : List Dependency × String :=
  ((splitOnChar '\n' content.data).foldl (fun acc rawLine =>
    let line := trimSpace rawLine
    if startsWithL "#".data line || line.isEmpty then acc
    else acc ++ gemLineDeps line) [], "ruby")

/-! ## Detector and aggregator (`findDependencyFiles`, `hasLockFile`,
`AnalyzeDependencies`) -/

/-- Final path segment: `strings.Split(path, "/")` followed by taking the
last element (the split result is never empty). -/
def baseName (path : String) : String :=
  String.mk ((splitOnChar '/' path.data).getLastD [])

/-- The `depFilePatterns` basename → ecosystem table. -/
def depFilePattern (filename : String) : Option String :=
  if filename = "package.json" then some "npm"
  else if filename = "go.mod" then some "go"
  else if filename = "requirements.txt" then some "python"
  else if filename = "Pipfile" then some "python"
  else if filename = "pyproject.toml" then some "python"
  else if filename = "Cargo.toml" then some "rust"
  else if filename = "Gemfile" then some "ruby"
  else none

/-- `findDependencyFiles`: the blob entries whose basename is a known
manifest name, as `(path, ecosystem)` pairs in tree order. -/
def findDependencyFiles : List TreeEntry → List (String × String)
  | [] => []
  | e :: t =>
    if e.type ≠ "blob" then findDependencyFiles t
    else
      match depFilePattern (baseName e.path) with
      | some ft => (e.path, ft) :: findDependencyFiles t
      | none => findDependencyFiles t

/-- The fixed list of known lock-file basenames. -/
def lockFileNames : List String :=
  ["package-lock.json", "yarn.lock", "pnpm-lock.yaml", "go.sum",
   "Pipfile.lock", "poetry.lock", "Cargo.lock", "Gemfile.lock"]

/-- `hasLockFile`: scans every tree entry (blobs and trees alike) for a
basename equal to a known lock-file name; the Go inner loop over
`lockFiles` with early `return true` is membership in `lockFileNames`. -/
def hasLockFile : List TreeEntry → Bool
  | [] => false
  | e :: t => lockFileNames.contains (baseName e.path) || hasLockFile t

/-- The `switch df.fileType` parser dispatch of `AnalyzeDependencies`;
an unknown tag leaves `deps`/`fileType` at their zero values (`nil`, `""`),
exactly as the Go `switch` without a default does. -/
def parseDispatch (sorter : List Dependency → List Dependency)
    (jdec : String → Option PkgJson) (ft : String) (content : String) :
    List Dependency × String :=
  if ft = "npm" then parsePackageJSON sorter jdec content
  else if ft = "go" then parseGoMod content
  else if ft = "python" then parseRequirementsTxt content
  else if ft = "rust" then parseCargoToml content
  else if ft = "ruby" then parseGemfile content
  else ([], "")

/-- The body of `AnalyzeDependencies`' per-manifest loop.  `fetch` models
`client.GetFileContent` composed with base64 decoding (`none` = fetch or
decode failure, the manifest is skipped).  A parse with zero dependencies
is dropped; otherwise the file is appended, `totalDeps` incremented and
the ecosystem tag recorded if unseen (`contains` linear scan). -/
def processManifest (sorter : List Dependency → List Dependency)
    (jdec : String → Option PkgJson) (fetch : String → Option String)
    (acc : DependencyAnalysis) (df : String × String) : DependencyAnalysis :=
  match fetch df.1 with
  | none => acc
  | some content =>
    let pr := parseDispatch sorter jdec df.2 content
    if 0 < pr.1.length then
      { files := acc.files ++ [⟨df.1, pr.2, pr.1, pr.1.length⟩]
        totalDeps := acc.totalDeps + pr.1.length
        languages :=
          if acc.languages.contains pr.2 then acc.languages
          else acc.languages ++ [pr.2]
        hasLock := acc.hasLock }
    else acc

/-- `AnalyzeDependencies`: detector, per-manifest fetch/decode/parse loop,
then the independent lock-file check. -/
def AnalyzeDependencies (sorter : List Dependency → List Dependency)
    (jdec : String → Option PkgJson) (fetch : String → Option String)
    (tree : List TreeEntry) : DependencyAnalysis :=
  let base := (findDependencyFiles tree).foldl
    (processManifest sorter jdec fetch) ⟨[], 0, [], false⟩
  { base with hasLock := hasLockFile tree }

/-! ## Contributor export (`export.go`) -/

/-- `github.Contributor` (the fields `ExportJSON`/`ExportMarkdown` read). -/
structure Contributor where
  login : String
  commits : Int
deriving DecidableEq, Repr

/-- `ContributorExport` — the JSON-export record per contributor. -/
structure ContributorExport where
  login : String
  commits : Int
deriving DecidableEq, Repr

/-- Zero value standing in for an (unreachable) out-of-range index read. -/
def defaultContributor : Contributor := ⟨"", 0⟩

/-- `maxContribs := 10; if len < 10 { maxContribs = len }`. -/
def maxContribs (cs : List Contributor) : Nat :=
  if cs.length < 10 then cs.length else 10

/-- The `topContribs` slice `ExportJSON` builds: the loop
`for i := 0; i < maxContribs; i++` appending `Contributors[i]`. -/
def topContributorsExport (cs : List Contributor) : List ContributorExport :=
  (List.range (maxContribs cs)).map (fun i =>
    ⟨(cs.getD i defaultContributor).login, (cs.getD i defaultContributor).commits⟩)

/-- One line of `ExportMarkdown`'s Top Contributors section:
`fmt.Sprintf("%d. %s (%d commits)\n", i+1, c.Login, c.Commits)`. -/
def mdContribLine (i : Nat) (c : Contributor) : String :=
  toString (i + 1) ++ ". " ++ c.login ++ " (" ++ toString c.commits ++ " commits)\n"

/-- The contributor lines `ExportMarkdown` emits (same index loop). -/
def markdownTopContributors (cs : List Contributor) : List String :=
  (List.range (maxContribs cs)).map (fun i =>
    mdContribLine i (cs.getD i defaultContributor))

/-! ## First-seen deduplication (specification-side helper for the
`languages` accumulation) -/

/-- First-seen-order deduplication: the fold the aggregator's
`contains`-guarded append performs, started from the empty list. -/
def firstSeenDedup (l : List String) : List String :=
  l.foldl (fun acc x => if acc.contains x then acc else acc ++ [x]) []

/-! ## Helper lemmas -/

lemma mem_insertDep {x d : Dependency} {l : List Dependency} :
    x ∈ insertDep d l ↔ x = d ∨ x ∈ l := by
  induction l with
  | nil => simp [insertDep]
  | cons e t ih =>
    by_cases h : d.name ≤ e.name
    · simp [insertDep, h, List.mem_cons]
    · simp [insertDep, h, List.mem_cons, ih]
      tauto

lemma insertDep_perm (d : Dependency) (l : List Dependency) :
    (insertDep d l).Perm (d :: l) := by
  induction l with
  | nil => simp [insertDep]
  | cons e t ih =>
    by_cases h : d.name ≤ e.name
    · simp [insertDep, h]
    · simp only [insertDep, h, if_neg, Bool.false_eq_true, ite_false]
      exact (ih.cons e).trans (List.Perm.swap d e t)

lemma insertDep_pairwise {d : Dependency} {l : List Dependency}
    (h : l.Pairwise nameLe) : (insertDep d l).Pairwise nameLe := by
  induction l with
  | nil => simp [insertDep, List.pairwise_singleton]
  | cons e t ih =>
    rcases List.pairwise_cons.mp h with ⟨he, ht⟩
    by_cases hd : d.name ≤ e.name
    · simp only [insertDep, hd, ite_true]
      refine List.pairwise_cons.mpr ⟨?_, h⟩
      intro x hx
      rcases List.mem_cons.mp hx with rfl | hx
      · exact hd
      · exact le_trans hd (he x hx)
    · simp only [insertDep, hd, ite_false]
      refine List.pairwise_cons.mpr ⟨?_, ih ht⟩
      intro x hx
      rcases mem_insertDep.mp hx with rfl | hx
      · exact le_of_not_le hd
      · exact he x hx

lemma goSort_sorts : IsSortImpl goSort := by
  intro l
  induction l with
  | nil => exact ⟨List.Perm.refl _, List.Pairwise.nil⟩
  | cons d t ih =>
    exact ⟨(insertDep_perm d (goSort t)).trans (ih.1.cons d),
      insertDep_pairwise ih.2⟩

instance : IsAntisymm Dependency nameLt :=
  ⟨fun _ _ h1 h2 => absurd (lt_trans h1 h2) (lt_irrefl _)⟩

lemma pairwise_nameLt_of_nodup {l : List Dependency}
    (h : l.Pairwise nameLe) (hn : (l.map Dependency.name).Nodup) :
    l.Pairwise nameLt := by
  have hne : l.Pairwise (fun a b => a.name ≠ b.name) := List.pairwise_map.mp hn
  exact (h.and hne).imp (fun hab => lt_of_le_of_ne hab.1 hab.2)

/-- A name-sorted permutation of a name-sorted list with pairwise-distinct
names is that list. -/
lemma sorted_perm_nodup_eq {l₁ l₂ : List Dependency} (hp : l₁.Perm l₂)
    (h₁ : l₁.Pairwise nameLe) (h₂ : l₂.Pairwise nameLe)
    (hn : (l₂.map Dependency.name).Nodup) : l₁ = l₂ := by
  have hn₁ : (l₁.map Dependency.name).Nodup :=
    ((hp.map Dependency.name).nodup_iff).mpr hn
  exact List.eq_of_perm_of_sorted (r := nameLt) hp
    (pairwise_nameLt_of_nodup h₁ hn₁) (pairwise_nameLt_of_nodup h₂ hn)

lemma hasLockFile_iff_exists (tree : List TreeEntry) :
    hasLockFile tree = true ↔ ∃ e ∈ tree, baseName e.path ∈ lockFileNames := by
  induction tree with
  | nil => simp [hasLockFile]
  | cons e t ih =>
    simp [hasLockFile, ih, List.mem_cons, or_and_right, exists_or,
      List.elem_iff]

lemma firstSeenDedup_append (l : List String) (x : String) :
    firstSeenDedup (l ++ [x]) =
      if (firstSeenDedup l).contains x then firstSeenDedup l
      else firstSeenDedup l ++ [x] := by
  simp [firstSeenDedup, List.foldl_append]

lemma dedup_step_nodup (acc : List String) (y : String) (h : acc.Nodup) :
    ((if acc.contains y then acc else acc ++ [y]) : List String).Nodup := by
  by_cases hy : y ∈ acc
  · rw [if_pos (List.elem_iff.mpr hy)]
    exact h
  · rw [if_neg (fun hcc => hy (List.elem_iff.mp hcc))]
    rw [← List.concat_eq_append]
    exact h.concat hy

lemma foldl_dedup_nodup (l : List String) :
    ∀ acc : List String, acc.Nodup →
      (l.foldl (fun acc x => if acc.contains x then acc else acc ++ [x])
        acc).Nodup := by
  induction l with
  | nil => intro acc h; simpa using h
  | cons y t ih =>
    intro acc h
    simp only [List.foldl_cons]
    exact ih _ (dedup_step_nodup acc y h)

lemma firstSeenDedup_nodup (l : List String) : (firstSeenDedup l).Nodup :=
  foldl_dedup_nodup l [] List.nodup_nil

/-- The aggregation invariant maintained by `AnalyzeDependencies`' loop. -/
def analysisInv (a : DependencyAnalysis) : Prop :=
  (∀ f ∈ a.files,
    0 < f.dependencies.length ∧ f.totalCount = f.dependencies.length) ∧
  a.totalDeps = (a.files.map (fun f => f.dependencies.length)).sum ∧
  a.languages = firstSeenDedup (a.files.map (fun f => f.fileType))

lemma processManifest_inv (sorter : List Dependency → List Dependency)
    (jdec : String → Option PkgJson) (fetch : String → Option String)
    (df : String × String) {acc : DependencyAnalysis} (h : analysisInv acc) :
    analysisInv (processManifest sorter jdec fetch acc df) := by
  unfold processManifest
  cases hf : fetch df.1 with
  | none => exact h
  | some content =>
    dsimp only
    by_cases h0 : 0 < (parseDispatch sorter jdec df.2 content).1.length
    · rw [if_pos h0]
      refine ⟨?_, ?_, ?_⟩
      · intro f hfm
        rcases List.mem_append.mp hfm with hfm | hfm
        · exact h.1 f hfm
        · rcases List.mem_singleton.mp hfm with rfl
          exact ⟨h0, rfl⟩
      · simp [h.2.1, List.map_append, List.sum_append]
      · simp only [List.map_append, List.map_cons, List.map_nil]
        rw [firstSeenDedup_append, ← h.2.2]
    · rw [if_neg h0]
      exact h

lemma foldl_processManifest_inv (sorter : List Dependency → List Dependency)
    (jdec : String → Option PkgJson) (fetch : String → Option String) :
    ∀ (dfs : List (String × String)) (acc : DependencyAnalysis),
      analysisInv acc →
      analysisInv (dfs.foldl (processManifest sorter jdec fetch) acc) := by
  intro dfs
  induction dfs with
  | nil => intro acc h; exact h
  | cons df t ih =>
    intro acc h
    exact ih _ (processManifest_inv sorter jdec fetch df h)

lemma analyzeDependencies_inv (sorter : List Dependency → List Dependency)
    (jdec : String → Option PkgJson) (fetch : String → Option String)
    (tree : List TreeEntry) :
    analysisInv (AnalyzeDependencies sorter jdec fetch tree) := by
  have hinit : analysisInv ⟨[], 0, [], false⟩ := by
    refine ⟨by simp, by simp, by simp [firstSeenDedup]⟩
  have hbase := foldl_processManifest_inv sorter jdec fetch
    (findDependencyFiles tree) _ hinit
  unfold AnalyzeDependencies
  exact hbase

lemma foldl_congr_fun {α β : Type} {f g : α → β → α}
    (h : ∀ a b, f a b = g a b) :
    ∀ (l : List β) (a : α), l.foldl f a = l.foldl g a := by
  intro l
  induction l with
  | nil => intro a; rfl
  | cons b t ih => intro a; simp only [List.foldl_cons, h, ih]

lemma map_range_getD {α β : Type} (l : List α) (d : α) (g : α → β) :
    (List.range l.length).map (fun i => g (l.getD i d)) = l.map g := by
  induction l with
  | nil => simp
  | cons a t ih =>
    rw [List.length_cons, List.range_succ_eq_map]
    simp only [List.map_cons, List.map_map, List.getD_cons_zero]
    refine congrArg (g a :: ·) ?_
    have hfun : ((fun i => g ((a :: t).getD i d)) ∘ Nat.succ) =
        (fun i => g (t.getD i d)) := by
      funext i
      simp
    rw [hfun]
    exact ih

lemma getD_take {α : Type} (l : List α) (d : α) (n i : Nat) (h : i < n) :
    (l.take n).getD i d = l.getD i d := by
  induction l generalizing n i with
  | nil => simp
  | cons a t ih =>
    cases n with
    | zero => omega
    | succ m =>
      cases i with
      | zero => simp
      | succ j => simpa using ih m j (by omega)

lemma mem_of_startsWithL {p l : List Char} {c : Char}
    (h : startsWithL p l = true) (hc : c ∈ p) : c ∈ l := by
  induction p generalizing l with
  | nil => simp at hc
  | cons a p' ih =>
    cases l with
    | nil => simp [startsWithL, List.isPrefixOf] at h
    | cons b l' =>
      simp only [startsWithL, List.isPrefixOf, Bool.and_eq_true,
        beq_iff_eq] at h
      rcases List.mem_cons.mp hc with rfl | hc'
      · rw [h.1]
        exact List.mem_cons_self _ _
      · exact List.mem_cons_of_mem _ (ih h.2 hc')

lemma startsWithL_mem {p l : List Char} {c : Char}
    (h : startsWithL p l = true) (hc : c ∈ p) : l.contains c = true :=
  List.elem_iff.mpr (mem_of_startsWithL h hc)

/-! ## Claim theorems -/

/-- C1, counterexample.  A single-line `require` declaration carrying the
trailing `// indirect` marker is parsed by `parseGoMod` with type
`"production"`, not `"indirect"`: the single-line branch never inspects the
marker.  The first conjunct records that the line does contain the marker. -/
theorem parseGoMod_single_line_indirect_counterexample :
    containsSub "// indirect".data
      (trimSpace "require github.com/x/y v1.2.3 // indirect".data) = true ∧
    (parseGoMod "require github.com/x/y v1.2.3 // indirect").1 =
      [⟨"github.com/x/y", "v1.2.3", "production"⟩] := by
  constructor
  · decide
  · decide

/-- C1, amended.  Only requirement lines *inside* a `require (` block are
tagged `indirect` when they contain the `// indirect` marker (and
`production` otherwise); a single-line `require <module> <version>`
declaration is always tagged `production`, marker or not.  Both conjuncts
characterise the per-line loop body `goModLineStep` of `parseGoMod`. -/
theorem parseGoMod_indirect_amended (inReq : Bool) (ds : List Dependency)
    (rawLine nm ver w : List Char) (rest : List (List Char)) :
    (startsWithL "require ".data (trimSpace rawLine) = true →
     (trimSpace rawLine).contains '(' = false →
     fields (trimSpace rawLine) = w :: nm :: ver :: rest →
     goModLineStep (inReq, ds) rawLine =
       (inReq, ds ++ [⟨String.mk nm, String.mk ver, "production"⟩])) ∧
    (startsWithL "require (".data (trimSpace rawLine) = false →
     trimSpace rawLine ≠ ")".data →
     startsWithL "require ".data (trimSpace rawLine) = false →
     (trimSpace rawLine).isEmpty = false →
     startsWithL "//".data (trimSpace rawLine) = false →
     fields (trimSpace rawLine) = nm :: ver :: rest →
     goModLineStep (true, ds) rawLine =
       (true, ds ++ [⟨String.mk nm, String.mk ver,
         if containsSub "// indirect".data (trimSpace rawLine) then "indirect"
         else "production"⟩])) := by
  constructor
  · intro hpre hpar hf
    have hp1 : startsWithL "require (".data (trimSpace rawLine) = false := by
      cases hx : startsWithL "require (".data (trimSpace rawLine) with
      | false => rfl
      | true =>
        have hc := startsWithL_mem hx (by decide : '(' ∈ "require (".data)
        rw [hpar] at hc
        exact absurd hc (by decide)
    have hne : trimSpace rawLine ≠ ")".data := by
      intro he
      rw [he] at hpre
      exact absurd hpre (by decide)
    have hparm : '(' ∉ trimSpace rawLine := by
      intro hm
      have hc2 : (trimSpace rawLine).contains '(' = true := List.elem_iff.mpr hm
      rw [hpar] at hc2
      exact Bool.noConfusion hc2
    simp [goModLineStep, hp1, hne, hpre, hparm, hf]
  · intro hp1 hne hpre hemp hslash hf
    simp [goModLineStep, hp1, hne, hpre, hemp, hslash, hf]

/-- C1 amended, witness: the single-line branch on
`require foo v1.0 // indirect` (tagged production despite the marker) and
the in-block branch on `foo v1.0 // indirect` (tagged indirect). -/
theorem parseGoMod_indirect_amended_witness :
    goModLineStep (false, []) "require foo v1.0 // indirect".data =
      (false, [⟨"foo", "v1.0", "production"⟩]) ∧
    goModLineStep (true, []) "foo v1.0 // indirect".data =
      (true, [⟨"foo", "v1.0", "indirect"⟩]) := by
  constructor
  · exact (parseGoMod_indirect_amended false [] _ "foo".data "v1.0".data
      "require".data ["//".data, "indirect".data]).1
      (by decide) (by decide) (by decide)
  · rw [(parseGoMod_indirect_amended true [] _ "foo".data "v1.0".data
      [] ["//".data, "indirect".data]).2
      (by decide) (by decide) (by decide) (by decide) (by decide) (by decide)]
    decide

/-- C4.  `hasLockFile` is true exactly when some tree entry's final path
segment equals (case-sensitively) one of the eight fixed lock-file names,
and it is false on the empty tree. -/
theorem hasLockFile_spec (tree : List TreeEntry) :
    (hasLockFile tree = true ↔
      ∃ e ∈ tree, baseName e.path ∈ lockFileNames) ∧
    hasLockFile ([] : List TreeEntry) = false := by
  exact ⟨hasLockFile_iff_exists tree, rfl⟩

/-- C7.  Every parser is a total function returning its fixed ecosystem tag
on every input; the npm parser returns the empty dependency list whenever
the JSON decode (oracle `jdec`) fails.  The four line-oriented parsers are
total by construction on all byte sequences. -/
theorem parsers_total_fixed_tag :
    (∀ content, (parseGoMod content).2 = "go") ∧
    (∀ content, (parseRequirementsTxt content).2 = "python") ∧
    (∀ content, (parseCargoToml content).2 = "rust") ∧
    (∀ content, (parseGemfile content).2 = "ruby") ∧
    (∀ sorter jdec content,
      (parsePackageJSON sorter jdec content).2 = "npm" ∧
      (jdec content = none →
        (parsePackageJSON sorter jdec content).1 = [])) := by
  refine ⟨fun _ => rfl, fun _ => rfl, fun _ => rfl, fun _ => rfl, ?_⟩
  intro sorter jdec content
  unfold parsePackageJSON
  cases hj : jdec content with
  | none => exact ⟨rfl, fun _ => rfl⟩
  | some pkg =>
    refine ⟨rfl, fun hc => ?_⟩
    simp at hc

/-- C7, witness: tags on malformed concrete inputs, and the empty npm list
under a failing decode oracle. -/
theorem parsers_total_fixed_tag_witness :
    (parseGoMod "!!not a go.mod!!").2 = "go" ∧
    (parsePackageJSON goSort (fun _ => none) "not json").1 = [] := by
  exact ⟨parsers_total_fixed_tag.1 "!!not a go.mod!!",
    (parsers_total_fixed_tag.2.2.2.2 goSort (fun _ => none) "not json").2 rfl⟩

/-- C2.  Every file retained by `AnalyzeDependencies` has a non-empty
dependency list (zero-dependency parses are dropped), and `totalDeps` is
exactly the sum of the retained files' dependency-list lengths — for every
tree listing and every fetched-content snapshot (`fetch`), any decode
oracle and any sort implementation. -/
theorem analyzeDependencies_drops_empty
    (sorter : List Dependency → List Dependency)
    (jdec : String → Option PkgJson) (fetch : String → Option String)
    (tree : List TreeEntry) :
    (∀ f ∈ (AnalyzeDependencies sorter jdec fetch tree).files,
      0 < f.dependencies.length) ∧
    (AnalyzeDependencies sorter jdec fetch tree).totalDeps =
      ((AnalyzeDependencies sorter jdec fetch tree).files.map
        (fun f => f.dependencies.length)).sum := by
  have h := analyzeDependencies_inv sorter jdec fetch tree
  exact ⟨fun f hf => (h.1 f hf).1, h.2.1⟩

/-- C2, witness: a one-manifest tree whose go.mod parse retains one file. -/
theorem analyzeDependencies_drops_empty_witness :
    (0 < ([⟨"a", "v1", "production"⟩] : List Dependency).length) ∧
    (AnalyzeDependencies goSort (fun _ => none)
        (fun _ => some "require a v1") [⟨"go.mod", "blob"⟩]).totalDeps =
      ((AnalyzeDependencies goSort (fun _ => none)
        (fun _ => some "require a v1") [⟨"go.mod", "blob"⟩]).files.map
          (fun f => f.dependencies.length)).sum := by
  refine ⟨?_, (analyzeDependencies_drops_empty goSort (fun _ => none)
    (fun _ => some "require a v1") [⟨"go.mod", "blob"⟩]).2⟩
  exact (analyzeDependencies_drops_empty goSort (fun _ => none)
    (fun _ => some "require a v1") [⟨"go.mod", "blob"⟩]).1
    ⟨"go.mod", "go", [⟨"a", "v1", "production"⟩], 1⟩ (by decide)

/-- C5.  Every `DependencyFile` produced by `AnalyzeDependencies` has
`totalCount` equal to the length of its dependency list. -/
theorem totalCount_eq_length (sorter : List Dependency → List Dependency)
    (jdec : String → Option PkgJson) (fetch : String → Option String)
    (tree : List TreeEntry) :
    ∀ f ∈ (AnalyzeDependencies sorter jdec fetch tree).files,
      f.totalCount = f.dependencies.length := by
  intro f hf
  exact ((analyzeDependencies_inv sorter jdec fetch tree).1 f hf).2

/-- C5, witness: the count field of a Gemfile manifest's record. -/
theorem totalCount_eq_length_witness :
    (1 : Nat) =
      ([⟨"pry", "*", "production"⟩] : List Dependency).length := by
  exact totalCount_eq_length goSort (fun _ => none)
    (fun _ => some "gem \"pry\"") [⟨"Gemfile", "blob"⟩]
    ⟨"Gemfile", "ruby", [⟨"pry", "*", "production"⟩], 1⟩ (by decide)

/-- C6.  The `languages` list of an analysis is exactly the first-seen-order
deduplication of the retained files' ecosystem tags, and contains no
duplicates. -/
theorem languages_firstSeen_nodup (sorter : List Dependency → List Dependency)
    (jdec : String → Option PkgJson) (fetch : String → Option String)
    (tree : List TreeEntry) :
    (AnalyzeDependencies sorter jdec fetch tree).languages =
      firstSeenDedup ((AnalyzeDependencies sorter jdec fetch tree).files.map
        (fun f => f.fileType)) ∧
    (AnalyzeDependencies sorter jdec fetch tree).languages.Nodup := by
  have h := analyzeDependencies_inv sorter jdec fetch tree
  refine ⟨h.2.2, ?_⟩
  rw [h.2.2]
  exact firstSeenDedup_nodup _

/-- C3.  Given any valid sort implementation, the npm parser's output is
always non-strictly sorted ascending by name (production/dev/peer entries
merged into one sequence), and on the decoded input with dependency map
`{"a": "^1.0"}` and devDependencies map `{"b": "~2.0"}` the output is
exactly `[{a, ^1.0, production}, {b, ~2.0, dev}]`. -/
theorem parsePackageJSON_sorted_example
    (sorter : List Dependency → List Dependency) (hs : IsSortImpl sorter) :
    (∀ jdec content,
      ((parsePackageJSON sorter jdec content).1).Pairwise nameLe) ∧
    (∀ jdec content,
      jdec content = some ⟨[("a", "^1.0")], [("b", "~2.0")], []⟩ →
      parsePackageJSON sorter jdec content =
        ([⟨"a", "^1.0", "production"⟩, ⟨"b", "~2.0", "dev"⟩], "npm")) := by
  constructor
  · intro jdec content
    unfold parsePackageJSON
    cases jdec content with
    | none => exact List.Pairwise.nil
    | some pkg => exact (hs (pkgDeps pkg)).2
  · intro jdec content hj
    unfold parsePackageJSON
    rw [hj]
    dsimp only
    have hd : pkgDeps ⟨[("a", "^1.0")], [("b", "~2.0")], []⟩ =
        [⟨"a", "^1.0", "production"⟩, ⟨"b", "~2.0", "dev"⟩] := by decide
    rw [hd]
    refine congrArg (·, "npm") ?_
    have hab : ("a" : String) ≤ "b" := by
      rw [String.le_iff_toList_le]
      decide
    have hsorted : List.Pairwise nameLe
        [(⟨"a", "^1.0", "production"⟩ : Dependency), ⟨"b", "~2.0", "dev"⟩] := by
      refine List.pairwise_cons.mpr ⟨?_, List.pairwise_singleton _ _⟩
      intro x hx
      rcases List.mem_singleton.mp hx with rfl
      exact hab
    exact sorted_perm_nodup_eq (hs _).1 (hs _).2 hsorted (by decide)

/-- C3, witness: the insertion-sort implementation on the concrete decoded
maps yields the claimed merged sorted list. -/
theorem parsePackageJSON_sorted_example_witness :
    parsePackageJSON goSort
        (fun _ => some ⟨[("a", "^1.0")], [("b", "~2.0")], []⟩) "" =
      ([⟨"a", "^1.0", "production"⟩, ⟨"b", "~2.0", "dev"⟩], "npm") := by
  exact (parsePackageJSON_sorted_example goSort goSort_sorts).2
    (fun _ => some ⟨[("a", "^1.0")], [("b", "~2.0")], []⟩) "" rfl

/-! ## C8: determinism of the aggregator

`sort.Slice` is documented as unstable, so when a manifest declares the
same dependency name in two sections, two executions may legitimately
order the equal-named entries differently.  `swapSorter` below is a second
implementation satisfying the `sort.Slice` contract that witnesses this. -/

/-- The production-side entry of a package.json declaring `x` twice. -/
def xProdDep : Dependency := ⟨"x", "1", "production"⟩

/-- The dev-side entry of a package.json declaring `x` twice. -/
def xDevDep : Dependency := ⟨"x", "2", "dev"⟩

/-- Decode oracle for a package.json declaring `x` both as a production
and as a dev dependency. -/
def dupJdec : String → Option PkgJson :=
  fun _ => some ⟨[("x", "1")], [("x", "2")], []⟩

/-- A valid unstable-sort outcome that orders the two equal-named entries
the other way round. -/
def swapSorter (l : List Dependency) : List Dependency :=
  if l = [xProdDep, xDevDep] then [xDevDep, xProdDep] else goSort l

/-- A valid unstable-sort outcome that keeps the two equal-named entries in
section order. -/
def keepSorter (l : List Dependency) : List Dependency :=
  if l = [xProdDep, xDevDep] then [xProdDep, xDevDep] else goSort l

lemma swapSorter_sorts : IsSortImpl swapSorter := by
  intro l
  unfold swapSorter
  by_cases h : l = [xProdDep, xDevDep]
  · subst h
    rw [if_pos rfl]
    refine ⟨List.Perm.swap _ _ _, ?_⟩
    refine List.pairwise_cons.mpr ⟨?_, List.pairwise_singleton _ _⟩
    intro x hx
    rcases List.mem_singleton.mp hx with rfl
    exact le_refl _
  · rw [if_neg h]
    exact goSort_sorts l

lemma keepSorter_sorts : IsSortImpl keepSorter := by
  intro l
  unfold keepSorter
  by_cases h : l = [xProdDep, xDevDep]
  · subst h
    rw [if_pos rfl]
    refine ⟨List.Perm.refl _, ?_⟩
    refine List.pairwise_cons.mpr ⟨?_, List.pairwise_singleton _ _⟩
    intro x hx
    rcases List.mem_singleton.mp hx with rfl
    exact le_refl _
  · rw [if_neg h]
    exact goSort_sorts l

/-- C8, counterexample.  Two executions of `AnalyzeDependencies` over the
identical tree listing and identical fetched/decoded content, differing
only in which sorted permutation the unstable `sort.Slice` happens to
produce (both `keepSorter` and `swapSorter` satisfy the sort contract),
yield different `DependencyAnalysis` values when a manifest declares the
same dependency name in two sections. -/
theorem analyzeDependencies_idempotence_counterexample :
    IsSortImpl keepSorter ∧ IsSortImpl swapSorter ∧
    AnalyzeDependencies keepSorter dupJdec (fun _ => some "")
        [⟨"package.json", "blob"⟩] ≠
      AnalyzeDependencies swapSorter dupJdec (fun _ => some "")
        [⟨"package.json", "blob"⟩] := by
  refine ⟨keepSorter_sorts, swapSorter_sorts, ?_⟩
  decide

/-- C8, amended.  Re-running `AnalyzeDependencies` on the same tree listing
and fetched content yields the identical analysis provided no decoded
manifest declares the same dependency name in more than one section: any
two sort implementations satisfying the `sort.Slice` contract then produce
the same output (the general claim fails only on duplicate names, per the
counterexample). -/
theorem analyzeDependencies_idempotence_amended
    (sorter₁ sorter₂ : List Dependency → List Dependency)
    (jdec : String → Option PkgJson) (fetch : String → Option String)
    (tree : List TreeEntry)
    (h1 : IsSortImpl sorter₁) (h2 : IsSortImpl sorter₂)
    (hn : ∀ content pkg, jdec content = some pkg →
      ((pkgDeps pkg).map Dependency.name).Nodup) :
    AnalyzeDependencies sorter₁ jdec fetch tree =
      AnalyzeDependencies sorter₂ jdec fetch tree := by
  have hnpm : ∀ content, parsePackageJSON sorter₁ jdec content =
      parsePackageJSON sorter₂ jdec content := by
    intro content
    unfold parsePackageJSON
    cases hj : jdec content with
    | none => rfl
    | some pkg =>
      refine congrArg (·, "npm") ?_
      have hnod := hn content pkg hj
      have hperm : (sorter₁ (pkgDeps pkg)).Perm (sorter₂ (pkgDeps pkg)) :=
        (h1 (pkgDeps pkg)).1.trans (h2 (pkgDeps pkg)).1.symm
      have hnod₂ : ((sorter₂ (pkgDeps pkg)).map Dependency.name).Nodup :=
        (((h2 (pkgDeps pkg)).1.map Dependency.name).nodup_iff).mpr hnod
      exact sorted_perm_nodup_eq hperm (h1 _).2 (h2 _).2 hnod₂
  have hdisp : ∀ ft content, parseDispatch sorter₁ jdec ft content =
      parseDispatch sorter₂ jdec ft content := by
    intro ft content
    unfold parseDispatch
    by_cases hft : ft = "npm"
    · rw [if_pos hft, if_pos hft, hnpm]
    · rw [if_neg hft, if_neg hft]
  have hproc : ∀ acc df, processManifest sorter₁ jdec fetch acc df =
      processManifest sorter₂ jdec fetch acc df := by
    intro acc df
    unfold processManifest
    cases fetch df.1 with
    | none => rfl
    | some content =>
      dsimp only
      rw [hdisp]
  unfold AnalyzeDependencies
  rw [foldl_congr_fun hproc]

/-- C8 amended, witness: with distinct names across sections, the stable
insertion sort and the swapping implementation agree on the whole
analysis. -/
theorem analyzeDependencies_idempotence_amended_witness :
    AnalyzeDependencies goSort (fun _ => some ⟨[("a", "1")], [("b", "2")], []⟩)
        (fun _ => some "") [⟨"package.json", "blob"⟩] =
      AnalyzeDependencies swapSorter
        (fun _ => some ⟨[("a", "1")], [("b", "2")], []⟩)
        (fun _ => some "") [⟨"package.json", "blob"⟩] := by
  refine analyzeDependencies_idempotence_amended goSort swapSorter _ _ _
    goSort_sorts swapSorter_sorts ?_
  intro content pkg h
  have hp : pkg = ⟨[("a", "1")], [("b", "2")], []⟩ := by
    exact (Option.some.injEq _ _).mp h.symm
  subst hp
  decide

/-! ## C9 and C10 helper lemmas -/

lemma gemLineDeps_type (line : List Char) :
    ∀ d ∈ gemLineDeps line, d.type = "production" := by
  unfold gemLineDeps
  cases findGem line with
  | none => simp
  | some r =>
    rcases r with ⟨nm, ver⟩
    intro d hd
    rcases List.mem_singleton.mp hd with rfl
    rfl

lemma gemfile_foldl_type (lines : List (List Char)) :
    ∀ acc : List Dependency, (∀ d ∈ acc, d.type = "production") →
      ∀ d ∈ lines.foldl (fun acc rawLine =>
        let line := trimSpace rawLine
        if startsWithL "#".data line || line.isEmpty then acc
        else acc ++ gemLineDeps line) acc, d.type = "production" := by
  induction lines with
  | nil => intro acc h; simpa using h
  | cons rawLine t ih =>
    intro acc h
    simp only [List.foldl_cons]
    refine ih _ ?_
    dsimp only
    by_cases hskip : (startsWithL "#".data (trimSpace rawLine)
        || (trimSpace rawLine).isEmpty) = true
    · rw [if_pos hskip]
      exact h
    · rw [if_neg hskip]
      intro d hd
      rcases List.mem_append.mp hd with hd | hd
      · exact h d hd
      · exact gemLineDeps_type _ d hd

/-! ## Claim theorems, continued -/

/-- C9.  Every entry the Gemfile parser produces is tagged `production`;
a matched gem declaration whose second quoted argument is absent (empty
capture) gets version `"*"`; `gem "rails", "7.0"` yields exactly
`[{rails, 7.0, production}]` and `gem "pry"` yields exactly
`[{pry, *, production}]`. -/
theorem parseGemfile_spec :
    (∀ content, ∀ d ∈ (parseGemfile content).1, d.type = "production") ∧
    (∀ line nm, findGem line = some (nm, []) →
      gemLineDeps line = [⟨String.mk nm, "*", "production"⟩]) ∧
    parseGemfile "gem \"rails\", \"7.0\"\n" =
      ([⟨"rails", "7.0", "production"⟩], "ruby") ∧
    parseGemfile "gem \"pry\"\n" = ([⟨"pry", "*", "production"⟩], "ruby") := by
  refine ⟨?_, ?_, by decide, by decide⟩
  · intro content
    exact gemfile_foldl_type _ [] (by simp)
  · intro line nm h
    unfold gemLineDeps
    rw [h]
    simp

/-- C9, witness: the production tag on the parsed rails entry, and the
`"*"` version default on the captured `pry` declaration. -/
theorem parseGemfile_spec_witness :
    (⟨"rails", "7.0", "production"⟩ : Dependency).type = "production" ∧
    gemLineDeps "gem \"pry\"".data = [⟨"pry", "*", "production"⟩] := by
  constructor
  · exact parseGemfile_spec.1 "gem \"rails\", \"7.0\"\n"
      ⟨"rails", "7.0", "production"⟩ (by decide)
  · exact (parseGemfile_spec.2.1 "gem \"pry\"".data "pry".data
      (by decide)).trans (by decide)

/-- C10.  Both exports include exactly `min 10 len` contributors: the
JSON `top_contributors` list is precisely the first ten (or fewer)
contributors mapped to export records in their given order, and the
markdown contributor lines depend only on the first ten contributors
(entries beyond the tenth never appear in either export). -/
theorem exports_top10_contributors (cs : List Contributor) :
    (topContributorsExport cs).length = min 10 cs.length ∧
    (markdownTopContributors cs).length = min 10 cs.length ∧
    topContributorsExport cs =
      (cs.take 10).map (fun c => ⟨c.login, c.commits⟩) ∧
    markdownTopContributors cs = markdownTopContributors (cs.take 10) := by
  have hmin : maxContribs cs = min 10 cs.length := by
    unfold maxContribs
    split_ifs with h <;> omega
  have hlen : maxContribs cs = (cs.take 10).length := by
    rw [hmin, List.length_take]
  refine ⟨?_, ?_, ?_, ?_⟩
  · simp [topContributorsExport, hmin]
  · simp [markdownTopContributors, hmin]
  · unfold topContributorsExport
    rw [hlen]
    have hcongr : ∀ i ∈ List.range (cs.take 10).length,
        (⟨(cs.getD i defaultContributor).login,
          (cs.getD i defaultContributor).commits⟩ : ContributorExport) =
        ⟨((cs.take 10).getD i defaultContributor).login,
          ((cs.take 10).getD i defaultContributor).commits⟩ := by
      intro i hi
      have hi10 : i < 10 := by
        have := List.mem_range.mp hi
        rw [List.length_take] at this
        omega
      rw [getD_take cs defaultContributor 10 i hi10]
    rw [List.map_congr_left hcongr]
    exact map_range_getD (cs.take 10) defaultContributor
      (fun c => (⟨c.login, c.commits⟩ : ContributorExport))
  · unfold markdownTopContributors
    have hmc : maxContribs (cs.take 10) = maxContribs cs := by
      unfold maxContribs
      rw [List.length_take]
      split_ifs <;> omega
    rw [hmc]
    refine List.map_congr_left ?_
    intro i hi
    have hi10 : i < 10 := by
      have := List.mem_range.mp hi
      rw [hmin] at this
      omega
    rw [getD_take cs defaultContributor 10 i hi10]

end RepoLyzer
